import Mathlib

/-!
Shallow embedding of `memCache.go` (maksattur/memCache): an in-process
key-value cache with per-entry TTL expiration and a periodic background
reclamation loop.

Modelling choices:
* the Go map `items map[string]Item` is an association list
  `List (String × Item α)`; reachable caches keep keys unique (`nodupKeys`);
* `time.Duration` values and `UnixNano()` timestamps are `Int` nanoseconds;
  each operation that calls `time.Now()` takes the current time `now : Int`
  as an explicit argument;
* the stored `interface{}` value is a type parameter `α`;
* `Delete`'s Go signature (mutating receiver, returning `error`) becomes a
  pure function returning the error (`Option String`) together with the
  post-state.
-/

/-- Item from memCache.go: the stored value, its creation time, and the
absolute expiration timestamp in nanoseconds (`0` = never expires). -/
structure Item (α : Type) where
  value : α
  created : Int
  expiration : Int
deriving DecidableEq

/-- Cache from memCache.go.  The Go map `items` is modelled as an
association list. -/
structure Cache (α : Type) where
  defaultExpiration : Int
  cleanupInterval : Int
  items : List (String × Item α)
deriving DecidableEq

/-- Go map read `m[key]`: the value stored at `key`, if present. -/
def mapLookup {β : Type} (key : String) : List (String × β) → Option β
  | [] => none
  | (k, v) :: rest => if k = key then some v else mapLookup key rest

/-- Go built-in `delete(m, key)`: drop every binding of `key`. -/
def mapErase {β : Type} (key : String) : List (String × β) → List (String × β)
  | [] => []
  | (k, v) :: rest =>
      if k = key then mapErase key rest else (k, v) :: mapErase key rest

/-- Go map write `m[key] = v`: overwrite any existing binding of `key`. -/
def mapInsert {β : Type} (key : String) (v : β) (m : List (String × β)) :
    List (String × β) :=
  (key, v) :: mapErase key m

/-- New from memCache.go, restricted to the cache value it builds: an empty
map plus the two configured durations.  (The `StartGC` side effect is
modelled separately by `gcIter` below.) -/
def New (α : Type) (defaultExpiration cleanupInterval : Int) : Cache α :=
  { defaultExpiration := defaultExpiration
    cleanupInterval := cleanupInterval
    items := [] }

/-- Set from memCache.go.  `duration == 0` is replaced by the default; a
positive resulting duration yields `expiration = now + duration`, otherwise
the never-expires sentinel `0` is kept.  The entry's `Created` field is the
same `time.Now()` call modelled by `now`. -/
def Cache.set {α : Type} (c : Cache α) (key : String) (value : α)
    (duration now : Int) : Cache α :=
  let d := if duration = 0 then c.defaultExpiration else duration
  let expiration : Int := if d > 0 then now + d else 0
  { c with items := mapInsert key ⟨value, now, expiration⟩ c.items }

/-- Get from memCache.go: `none` models Go's `nil` result.  An entry with
`Expiration > 0` that the current time has passed is hidden; the map is not
modified (the function returns no cache state). -/
def Cache.get {α : Type} (c : Cache α) (key : String) (now : Int) :
    Option α × Bool :=
  match mapLookup key c.items with
  | none => (none, false)
  | some item =>
      if item.expiration > 0 then
        if now > item.expiration then (none, false)
        else (some item.value, true)
      else (some item.value, true)

/-- GetAll from memCache.go: a fresh mapping from each key to its raw stored
value, with no expiration filtering (it takes no current time at all). -/
def Cache.getAll {α : Type} (c : Cache α) : List (String × α) :=
  c.items.map fun p => (p.1, p.2.value)

/-- Delete from memCache.go: the returned error (Go
`errors.New("Key not found")`) together with the post-state. -/
def Cache.delete {α : Type} (c : Cache α) (key : String) :
    Option String × Cache α :=
  match mapLookup key c.items with
  | none => (some "Key not found", c)
  | some _ => (none, { c with items := mapErase key c.items })

/-- Count from memCache.go: `len(c.items)`. -/
def Cache.count {α : Type} (c : Cache α) : Nat :=
  c.items.length

/-- expiredKeys from memCache.go: keys of entries with
`time.Now().UnixNano() > Expiration && Expiration > 0`. -/
def Cache.expiredKeys {α : Type} (c : Cache α) (now : Int) : List String :=
  (c.items.filter fun p =>
    decide (now > p.2.expiration) && decide (p.2.expiration > 0)).map Prod.fst

/-- clearItems from memCache.go: delete each listed key from the map. -/
def Cache.clearItems {α : Type} (c : Cache α) (keys : List String) : Cache α :=
  { c with items := keys.foldl (fun m k => mapErase k m) c.items }

/-- One sweeping phase of GC from memCache.go: compute the expired keys and,
if there are any, clear them. -/
def Cache.sweep {α : Type} (c : Cache α) (now : Int) : Cache α :=
  let keys := c.expiredKeys now
  if keys.length ≠ 0 then c.clearItems keys else c

/-- Keys of the association list are pairwise distinct: the invariant every
cache reachable from `New` satisfies, since a Go map holds at most one entry
per key. -/
abbrev nodupKeys {β : Type} (m : List (String × β)) : Prop :=
  (m.map Prod.fst).Nodup

/- Helper lemmas about the map model. -/

theorem mapLookup_mapErase_self {β : Type} (key : String)
    (m : List (String × β)) : mapLookup key (mapErase key m) = none := by
  induction m with
  | nil => rfl
  | cons p rest ih =>
      obtain ⟨k, v⟩ := p
      by_cases hk : k = key
      · simpa [mapErase, hk] using ih
      · simp [mapErase, mapLookup, hk, ih]

theorem mapLookup_mapErase_ne {β : Type} (k key : String) (h : k ≠ key)
    (m : List (String × β)) :
    mapLookup k (mapErase key m) = mapLookup k m := by
  induction m with
  | nil => rfl
  | cons p rest ih =>
      obtain ⟨k2, v⟩ := p
      have hne : key ≠ k := Ne.symm h
      by_cases hk : k2 = key
      · simp [mapErase, mapLookup, hk, hne, ih]
      · by_cases hk2 : k2 = k
        · simp [mapErase, mapLookup, hk, hk2, h]
        · simp [mapErase, mapLookup, hk, hk2, ih]

theorem mapLookup_eq_none_iff {β : Type} (k : String)
    (m : List (String × β)) :
    mapLookup k m = none ↔ k ∉ m.map Prod.fst := by
  induction m with
  | nil => simp [mapLookup]
  | cons p rest ih =>
      obtain ⟨k2, v⟩ := p
      by_cases hk : k2 = k
      · simp [mapLookup, hk]
      · simp [mapLookup, hk, ih, Ne.symm hk]

theorem mem_of_mapLookup_eq_some {β : Type} {k : String} {v : β}
    {m : List (String × β)} (h : mapLookup k m = some v) : (k, v) ∈ m := by
  induction m with
  | nil => simp [mapLookup] at h
  | cons p rest ih =>
      obtain ⟨k2, v2⟩ := p
      by_cases hk : k2 = k
      · subst hk
        simp [mapLookup] at h
        simp [h]
      · simp [mapLookup, hk] at h
        exact List.mem_cons_of_mem _ (ih h)

theorem mapLookup_eq_some_of_mem_nodup {β : Type} {k : String} {v : β}
    {m : List (String × β)} (hnd : nodupKeys m) (h : (k, v) ∈ m) :
    mapLookup k m = some v := by
  induction m with
  | nil => simp at h
  | cons p rest ih =>
      obtain ⟨k2, v2⟩ := p
      simp only [nodupKeys, List.map_cons, List.nodup_cons] at hnd
      rcases List.mem_cons.mp h with hhead | htail
      · have hk : k2 = k := (congrArg Prod.fst hhead).symm
        have hv : v2 = v := (congrArg Prod.snd hhead).symm
        simp [mapLookup, hk, hv]
      · have hk2 : k2 ≠ k := by
          intro hkk
          exact hnd.1 (hkk ▸ (List.mem_map.mpr ⟨(k, v), htail, rfl⟩))
        simp [mapLookup, hk2, ih hnd.2 htail]

theorem mapLookup_foldl_mapErase {β : Type} (k : String) (keys : List String)
    (m : List (String × β)) :
    mapLookup k (keys.foldl (fun m2 k2 => mapErase k2 m2) m) =
      if k ∈ keys then none else mapLookup k m := by
  induction keys generalizing m with
  | nil => simp
  | cons key rest ih =>
      by_cases hk : k = key
      · subst hk
        simp only [List.foldl_cons, ih, List.mem_cons, true_or, if_true]
        by_cases hm : k ∈ rest
        · simp [hm]
        · simp [hm, mapLookup_mapErase_self]
      · simp only [List.foldl_cons, ih, List.mem_cons]
        by_cases hm : k ∈ rest
        · simp [hm]
        · simp [hm, hk, mapLookup_mapErase_ne k key hk]

theorem mem_expiredKeys_iff {α : Type} (c : Cache α) (now : Int)
    (k : String) :
    k ∈ c.expiredKeys now ↔
      ∃ item, (k, item) ∈ c.items ∧ item.expiration < now ∧
        0 < item.expiration := by
  constructor
  · intro h
    rcases List.mem_map.mp h with ⟨p, hp, hfst⟩
    rcases List.mem_filter.mp hp with ⟨hmem, hcond⟩
    simp only [Bool.and_eq_true, decide_eq_true_eq] at hcond
    exact ⟨p.2, by simpa [← hfst] using hmem, hcond.1, hcond.2⟩
  · rintro ⟨item, hmem, hlt, hpos⟩
    refine List.mem_map.mpr ⟨(k, item), List.mem_filter.mpr ⟨hmem, ?_⟩, rfl⟩
    simp [hlt, hpos]

/- Claim theorems. -/

/-- C1: `Set key value duration` at time `now` stores an entry for `key`
whose expiration is `now + d` when the effective duration
`d = (if duration = 0 then defaultTTL else duration)` is positive and the
never-expires sentinel `0` otherwise, overwriting any existing entry for
`key` and leaving every other key's binding unchanged.  `Set` is a total
function: it never fails. -/
theorem set_spec {α : Type} (c : Cache α) (key : String) (value : α)
    (duration now : Int) :
    mapLookup key (c.set key value duration now).items =
      some ⟨value, now,
        if (if duration = 0 then c.defaultExpiration else duration) > 0 then
          now + (if duration = 0 then c.defaultExpiration else duration)
        else 0⟩ ∧
    ∀ k, k ≠ key →
      mapLookup k (c.set key value duration now).items =
        mapLookup k c.items := by
  constructor
  · simp [Cache.set, mapInsert, mapLookup]
  · intro k hk
    simp [Cache.set, mapInsert, mapLookup, Ne.symm hk,
      mapLookup_mapErase_ne k key hk]

/-- Witness for C1 at a concrete input, discharging the `k ≠ key`
hypothesis of the second conjunct. -/
theorem set_spec_witness :
    ("b" : String) ≠ "a" ∧
    mapLookup "b" ((New Nat 5 1).set "a" 7 3 100).items =
      mapLookup "b" (New Nat 5 1).items :=
  ⟨by decide, (set_spec (New Nat 5 1) "a" 7 3 100).2 "b" (by decide)⟩

/-- C2: `Get key` at time `now` returns `(none, false)` when `key` is
absent; when `key` holds an entry whose `expiration` is positive and
strictly less than `now` it also returns `(none, false)`, hiding the stored
value; otherwise it returns `(some value, true)`.  `Get` returns no cache
state, so it never modifies the map. -/
theorem get_spec {α : Type} (c : Cache α) (key : String) (now : Int) :
    (mapLookup key c.items = none → c.get key now = (none, false)) ∧
    ∀ item, mapLookup key c.items = some item →
      (0 < item.expiration ∧ item.expiration < now →
        c.get key now = (none, false)) ∧
      (¬ (0 < item.expiration ∧ item.expiration < now) →
        c.get key now = (some item.value, true)) := by
  constructor
  · intro h
    simp [Cache.get, h]
  · intro item h
    constructor
    · rintro ⟨hpos, hlt⟩
      simp [Cache.get, h, hpos, hlt]
    · intro hne
      by_cases hpos : 0 < item.expiration
      · have hle : ¬ item.expiration < now := fun hlt => hne ⟨hpos, hlt⟩
        simp [Cache.get, h, hpos, hle]
      · simp [Cache.get, h, hpos]

/-- Witness for C2 at concrete inputs: an absent key, a live entry, and an
expired entry, with each hypothesis discharged by computation. -/
theorem get_spec_witness :
    (Cache.get ⟨5, 1, [("a", ⟨7, 0, 10⟩)]⟩ "b" 4 = ((none : Option Nat), false)) ∧
    (Cache.get ⟨5, 1, [("a", ⟨7, 0, 10⟩)]⟩ "a" 4 = (some 7, true)) ∧
    (Cache.get ⟨5, 1, [("a", ⟨7, 0, 10⟩)]⟩ "a" 11 = ((none : Option Nat), false)) :=
  ⟨(get_spec ⟨5, 1, [("a", ⟨7, 0, 10⟩)]⟩ "b" 4).1 rfl,
   ((get_spec ⟨5, 1, [("a", ⟨7, 0, 10⟩)]⟩ "a" 4).2 ⟨7, 0, 10⟩ rfl).2 (by decide),
   ((get_spec ⟨5, 1, [("a", ⟨7, 0, 10⟩)]⟩ "a" 11).2 ⟨7, 0, 10⟩ rfl).1 (by decide)⟩

/-- C4: `GetAll` maps every key present in the cache to its raw stored
value: looking a key up in the returned mapping yields exactly the stored
`value` of that key's entry, with no expiration filtering (`getAll` takes
no current time, so no entry is hidden). -/
theorem getAll_spec {α : Type} (c : Cache α) (k : String) :
    mapLookup k c.getAll = Option.map Item.value (mapLookup k c.items) := by
  show mapLookup k (c.items.map fun p => (p.1, p.2.value)) =
    Option.map Item.value (mapLookup k c.items)
  induction c.items with
  | nil => rfl
  | cons p rest ih =>
      obtain ⟨k2, v⟩ := p
      by_cases hk : k2 = k
      · simp [mapLookup, hk]
      · simp [mapLookup, hk, ih]

/-- C6: a `Get` of `key` at the same time `now` as a preceding
`Set key value duration`, with no intervening operation, returns
`(some value, true)` for every duration, including zero and negative
ones. -/
theorem set_get_roundtrip {α : Type} (c : Cache α) (key : String)
    (value : α) (duration now : Int) :
    (c.set key value duration now).get key now = (some value, true) := by
  set d := (if duration = 0 then c.defaultExpiration else duration) with hd
  have key_eq : mapLookup key (c.set key value duration now).items =
      some ⟨value, now, if d > 0 then now + d else 0⟩ := by
    simp [Cache.set, mapInsert, mapLookup, ← hd]
  by_cases hdpos : d > 0
  · have h1 : ¬ now > now + d := by omega
    simp [Cache.get, key_eq, hdpos, h1]
  · simp [Cache.get, key_eq, hdpos]

theorem mapLookup_sweep {α : Type} (c : Cache α) (now : Int) (k : String) :
    mapLookup k (c.sweep now).items =
      if k ∈ c.expiredKeys now then none else mapLookup k c.items := by
  simp only [Cache.sweep]
  split
  · simp [Cache.clearItems, mapLookup_foldl_mapErase]
  · rename_i hempty
    have hnil : c.expiredKeys now = [] :=
      List.length_eq_zero.mp (by omega)
    simp [hnil]

/-- C3: one sweep cycle removes exactly the entries whose `expiration` is
positive and strictly below the scan time `now`, and leaves every other
entry (in particular every entry with the sentinel `expiration = 0`)
unchanged.  The `nodupKeys` hypothesis is the Go-map invariant that each
key has at most one entry. -/
theorem sweep_spec {α : Type} (c : Cache α) (now : Int)
    (h : nodupKeys c.items) (k : String) :
    mapLookup k (c.sweep now).items =
      match mapLookup k c.items with
      | none => none
      | some item =>
          if 0 < item.expiration ∧ item.expiration < now then none
          else some item := by
  cases hl : mapLookup k c.items with
  | none =>
      rw [mapLookup_sweep, hl]
      split <;> rfl
  | some item =>
      rw [mapLookup_sweep, hl]
      by_cases hexp : 0 < item.expiration ∧ item.expiration < now
      · have hk : k ∈ c.expiredKeys now :=
          (mem_expiredKeys_iff c now k).mpr
            ⟨item, mem_of_mapLookup_eq_some hl, hexp.2, hexp.1⟩
        simp [hk, hexp]
      · have hk : k ∉ c.expiredKeys now := by
          intro hmem
          rcases (mem_expiredKeys_iff c now k).mp hmem with
            ⟨item2, hmem2, hlt2, hpos2⟩
          have h2 := mapLookup_eq_some_of_mem_nodup h hmem2
          rw [hl] at h2
          have heq : item = item2 := Option.some.inj h2
          exact hexp ⟨heq ▸ hpos2, heq ▸ hlt2⟩
        simp [hk, hexp]

/-- Witness for C3: a cache holding one expired entry, one live entry and
one never-expiring entry; the sweep at time 20 removes exactly the expired
one. -/
theorem sweep_spec_witness :
    nodupKeys (⟨5, 1, [("a", ⟨7, 0, 10⟩), ("b", ⟨8, 0, 30⟩),
        ("c", ⟨9, 0, 0⟩)]⟩ : Cache Nat).items ∧
    mapLookup "a" ((⟨5, 1, [("a", ⟨7, 0, 10⟩), ("b", ⟨8, 0, 30⟩),
        ("c", ⟨9, 0, 0⟩)]⟩ : Cache Nat).sweep 20).items = none ∧
    mapLookup "b" ((⟨5, 1, [("a", ⟨7, 0, 10⟩), ("b", ⟨8, 0, 30⟩),
        ("c", ⟨9, 0, 0⟩)]⟩ : Cache Nat).sweep 20).items = some ⟨8, 0, 30⟩ ∧
    mapLookup "c" ((⟨5, 1, [("a", ⟨7, 0, 10⟩), ("b", ⟨8, 0, 30⟩),
        ("c", ⟨9, 0, 0⟩)]⟩ : Cache Nat).sweep 20).items = some ⟨9, 0, 0⟩ :=
  ⟨by decide,
   (sweep_spec ⟨5, 1, [("a", ⟨7, 0, 10⟩), ("b", ⟨8, 0, 30⟩),
      ("c", ⟨9, 0, 0⟩)]⟩ 20 (by decide) "a").trans (by decide),
   (sweep_spec ⟨5, 1, [("a", ⟨7, 0, 10⟩), ("b", ⟨8, 0, 30⟩),
      ("c", ⟨9, 0, 0⟩)]⟩ 20 (by decide) "b").trans (by decide),
   (sweep_spec ⟨5, 1, [("a", ⟨7, 0, 10⟩), ("b", ⟨8, 0, 30⟩),
      ("c", ⟨9, 0, 0⟩)]⟩ 20 (by decide) "c").trans (by decide)⟩

/-- C5: `Delete key` fails with the `KeyNotFound` error exactly when `key`
is absent, leaving the cache unchanged in that case; on a present key it
succeeds (`none` error), removes that entry, and leaves every other key's
binding unchanged.  The third conjunct: the only error `Delete` can ever
return is the `KeyNotFound` message (and no other operation in the model
returns an error at all). -/
theorem delete_spec {α : Type} (c : Cache α) (key : String) :
    (mapLookup key c.items = none →
      c.delete key = (some "Key not found", c)) ∧
    (∀ item, mapLookup key c.items = some item →
      (c.delete key).1 = none ∧
      mapLookup key ((c.delete key).2).items = none ∧
      ∀ k, k ≠ key →
        mapLookup k ((c.delete key).2).items = mapLookup k c.items) ∧
    (∀ e, (c.delete key).1 = some e → e = "Key not found") := by
  refine ⟨?_, ?_, ?_⟩
  · intro h
    simp [Cache.delete, h]
  · intro item h
    refine ⟨by simp [Cache.delete, h], by simp [Cache.delete, h,
      mapLookup_mapErase_self], ?_⟩
    intro k hk
    simp [Cache.delete, h, mapLookup_mapErase_ne k key hk]
  · intro e he
    cases hl : mapLookup key c.items with
    | none =>
        simp [Cache.delete, hl] at he
        exact he.symm
    | some item =>
        simp [Cache.delete, hl] at he

/-- Witness for C5: deleting an absent key fails with `KeyNotFound` and
keeps the state; deleting the present key succeeds and removes it. -/
theorem delete_spec_witness :
    (Cache.delete (⟨5, 1, [("a", ⟨7, 0, 10⟩)]⟩ : Cache Nat) "b" =
      (some "Key not found", ⟨5, 1, [("a", ⟨7, 0, 10⟩)]⟩)) ∧
    ((Cache.delete (⟨5, 1, [("a", ⟨7, 0, 10⟩)]⟩ : Cache Nat) "a").1 = none) ∧
    mapLookup "a"
      ((Cache.delete (⟨5, 1, [("a", ⟨7, 0, 10⟩)]⟩ : Cache Nat) "a").2).items =
      none :=
  ⟨(delete_spec (⟨5, 1, [("a", ⟨7, 0, 10⟩)]⟩ : Cache Nat) "b").1 rfl,
   ((delete_spec (⟨5, 1, [("a", ⟨7, 0, 10⟩)]⟩ : Cache Nat) "a").2.1
      ⟨7, 0, 10⟩ rfl).1,
   ((delete_spec (⟨5, 1, [("a", ⟨7, 0, 10⟩)]⟩ : Cache Nat) "a").2.1
      ⟨7, 0, 10⟩ rfl).2.1⟩

/-- C7: when the default TTL is positive, `Set key value 0` produces
exactly the same cache (same stored value, created time and expiration) as
passing the default TTL explicitly at the same time `now`. -/
theorem set_zero_default {α : Type} (c : Cache α) (key : String) (value : α)
    (now : Int) (h : 0 < c.defaultExpiration) :
    c.set key value 0 now = c.set key value c.defaultExpiration now := by
  have hne : c.defaultExpiration ≠ 0 := by omega
  simp [Cache.set, hne]

/-- Witness for C7: with default TTL 5, setting with duration 0 equals
setting with duration 5. -/
theorem set_zero_default_witness :
    0 < (New Nat 5 1).defaultExpiration ∧
    (New Nat 5 1).set "a" 7 0 100 = (New Nat 5 1).set "a" 7 5 100 :=
  ⟨by decide, set_zero_default (New Nat 5 1) "a" 7 100 (by decide)⟩

/-- C8: `Count` is the exact number of entries in the map: every key with a
present binding is counted, regardless of expiration state (logically
expired entries included), and `count` takes no current time, so the result
cannot depend on the time. -/
theorem count_spec {α : Type} (c : Cache α) :
    c.count = (c.items.map Prod.fst).length ∧
    ∀ k, (mapLookup k c.items).isSome ↔ k ∈ c.items.map Prod.fst := by
  refine ⟨by simp [Cache.count], ?_⟩
  intro k
  rw [Option.isSome_iff_ne_none, Ne, mapLookup_eq_none_iff, not_not]

/-- C10: expiration comparisons are strict.  For an entry with positive
`expiration`, at `now` exactly equal to `expiration` a `Get` still returns
the stored value and the reclamation scan does not select the key; only
strictly past `expiration` does `Get` hide the entry and the scan select
it. -/
theorem strict_expiry {α : Type} (c : Cache α) (key : String) (item : Item α)
    (hnd : nodupKeys c.items) (hl : mapLookup key c.items = some item)
    (hpos : 0 < item.expiration) :
    c.get key item.expiration = (some item.value, true) ∧
    key ∉ c.expiredKeys item.expiration ∧
    ∀ now, item.expiration < now →
      c.get key now = (none, false) ∧ key ∈ c.expiredKeys now := by
  refine ⟨?_, ?_, ?_⟩
  · simp [Cache.get, hl, hpos]
  · intro hmem
    rcases (mem_expiredKeys_iff c item.expiration key).mp hmem with
      ⟨item2, hmem2, hlt2, _⟩
    have h2 := mapLookup_eq_some_of_mem_nodup hnd hmem2
    rw [hl] at h2
    have heq : item = item2 := Option.some.inj h2
    rw [← heq] at hlt2
    exact absurd hlt2 (lt_irrefl _)
  · intro now hnow
    refine ⟨by simp [Cache.get, hl, hpos, hnow], ?_⟩
    exact (mem_expiredKeys_iff c now key).mpr
      ⟨item, mem_of_mapLookup_eq_some hl, hnow, hpos⟩

/-- Witness for C10: an entry expiring at 10 is still returned (and not
scanned out) at time 10, and hidden (and scanned out) at time 11. -/
theorem strict_expiry_witness :
    (Cache.get (⟨5, 1, [("a", ⟨7, 0, 10⟩)]⟩ : Cache Nat) "a" 10 =
      (some 7, true)) ∧
    ("a" ∉ (⟨5, 1, [("a", ⟨7, 0, 10⟩)]⟩ : Cache Nat).expiredKeys 10) ∧
    (Cache.get (⟨5, 1, [("a", ⟨7, 0, 10⟩)]⟩ : Cache Nat) "a" 11 =
      (none, false)) ∧
    ("a" ∈ (⟨5, 1, [("a", ⟨7, 0, 10⟩)]⟩ : Cache Nat).expiredKeys 11) :=
  ⟨(strict_expiry (⟨5, 1, [("a", ⟨7, 0, 10⟩)]⟩ : Cache Nat) "a" ⟨7, 0, 10⟩
      (by decide) rfl (by decide)).1,
   (strict_expiry (⟨5, 1, [("a", ⟨7, 0, 10⟩)]⟩ : Cache Nat) "a" ⟨7, 0, 10⟩
      (by decide) rfl (by decide)).2.1,
   ((strict_expiry (⟨5, 1, [("a", ⟨7, 0, 10⟩)]⟩ : Cache Nat) "a" ⟨7, 0, 10⟩
      (by decide) rfl (by decide)).2.2 11 (by decide)).1,
   ((strict_expiry (⟨5, 1, [("a", ⟨7, 0, 10⟩)]⟩ : Cache Nat) "a" ⟨7, 0, 10⟩
      (by decide) rfl (by decide)).2.2 11 (by decide)).2⟩

/-- Cache with the Go map's nil-ness made explicit: `items = none` models a
nil map (the `c.items == nil` condition GC tests for its early return);
`some m` is an allocated map with contents `m`.  Used to state that the GC
loop's return branch is unreachable. -/
structure GoCache (α : Type) where
  defaultExpiration : Int
  cleanupInterval : Int
  items : Option (List (String × Item α))

/-- New from memCache.go over `GoCache`: `make(map[string]Item)` always
allocates, so `items` is `some []`, never nil. -/
def GoCache.new (α : Type) (defaultExpiration cleanupInterval : Int) :
    GoCache α :=
  ⟨defaultExpiration, cleanupInterval, some []⟩

/-- Set over `GoCache`: transforms the allocated map by `Cache.set`.  No
branch of any operation ever replaces the map by nil. -/
def GoCache.setOp {α : Type} (c : GoCache α) (key : String) (value : α)
    (duration now : Int) : GoCache α :=
  { c with items := c.items.map fun m =>
      (Cache.set ⟨c.defaultExpiration, c.cleanupInterval, m⟩ key value
        duration now).items }

/-- Delete over `GoCache`: transforms the allocated map by `Cache.delete`. -/
def GoCache.deleteOp {α : Type} (c : GoCache α) (key : String) : GoCache α :=
  { c with items := c.items.map fun m =>
      ((Cache.delete ⟨c.defaultExpiration, c.cleanupInterval, m⟩ key).2).items }

/-- Sweep phase over `GoCache`: transforms the allocated map by
`Cache.sweep`. -/
def GoCache.sweepOp {α : Type} (c : GoCache α) (now : Int) : GoCache α :=
  { c with items := c.items.map fun m =>
      (Cache.sweep ⟨c.defaultExpiration, c.cleanupInterval, m⟩ now).items }

/-- Cache states reachable from construction through the API operations and
the background sweep. -/
inductive GoReachable {α : Type} : GoCache α → Prop where
  | new (d ci : Int) : GoReachable (GoCache.new α d ci)
  | set (c : GoCache α) (key : String) (value : α) (duration now : Int) :
      GoReachable c → GoReachable (c.setOp key value duration now)
  | del (c : GoCache α) (key : String) :
      GoReachable c → GoReachable (c.deleteOp key)
  | sweep (c : GoCache α) (now : Int) :
      GoReachable c → GoReachable (c.sweepOp now)

/-- Outcome of one wake-up of the GC loop from memCache.go: `halted` is the
early `return` taken when `c.items == nil`; `next` continues the loop with
the post-sweep state. -/
inductive GCStep (α : Type) where
  | halted : GCStep α
  | next : GoCache α → GCStep α

/-- One iteration of the GC loop body from memCache.go after the timer
fires: return if the map is nil, otherwise sweep and loop again. -/
def gcIter {α : Type} (c : GoCache α) (now : Int) : GCStep α :=
  match c.items with
  | none => GCStep.halted
  | some _ => GCStep.next (c.sweepOp now)

theorem goReachable_items_isSome {α : Type} {c : GoCache α}
    (h : GoReachable c) : c.items.isSome := by
  induction h with
  | new d ci => rfl
  | set c key value duration now _ ih => simpa [GoCache.setOp] using ih
  | del c key _ ih => simpa [GoCache.deleteOp] using ih
  | sweep c now _ ih => simpa [GoCache.sweepOp] using ih

/-- C9: from every cache state reachable from construction, one GC
iteration takes the `next` branch carrying the post-sweep state and never
the early `return` (`halted`): the loop always performs another
wake-sweep-idle step, because `New` allocates the entry map and no
operation ever makes it nil. -/
theorem gc_never_returns {α : Type} (c : GoCache α) (h : GoReachable c)
    (now : Int) : gcIter c now = GCStep.next (c.sweepOp now) := by
  obtain ⟨m, hm⟩ := Option.isSome_iff_exists.mp (goReachable_items_isSome h)
  simp [gcIter, hm]

/-- Witness for C9: the freshly constructed cache takes the `next` branch. -/
theorem gc_never_returns_witness :
    gcIter (GoCache.new Nat 5 1) 0 =
      GCStep.next ((GoCache.new Nat 5 1).sweepOp 0) :=
  gc_never_returns (GoCache.new Nat 5 1) (GoReachable.new 5 1) 0
